import Mathlib

/-!
Verification of the `musik_std` harmonic formula engine.

This file embeds, as Lean definitions, the core data types and operations of
the library: the 3-valued `DegreeAlteration` and its `u8` codec
(`degree_alteration.rs`), the extended-harmony `FormulaDegree` and its
semitone-offset reduction (`formula_degree.rs`), the 2-bits-per-degree
`ChordFormula` packer (`chord_formula.rs`), and the bit-flag `ScaleFormula`
(`scale_formula.rs`).  Machine integers (`u32`, `u8`) are embedded as `Nat`,
with bitwise operators used exactly as in the source; Rust's `u32` bitwise
NOT is embedded as XOR with the 32-bit all-ones mask, and `u8` saturating
addition as `min (a + b) 255`.  Rust functions that can panic are embedded as
`Option`-returning functions, with `none` standing for the panic.
-/

/-- Rust `!x` on a `u32` operand: XOR with the 32-bit all-ones mask. -/
def u32_not (x : Nat) : Nat := (2 ^ 32 - 1) ^^^ x

/-- The alteration enum of `degree_alteration.rs`. -/
inductive DegreeAlteration
  | None
  | Flat
  | Sharp
deriving DecidableEq

/-- Embeds `DegreeAlteration::semitone_offset`. -/
def DegreeAlteration.semitone_offset : DegreeAlteration → Int
  | .None => 0
  | .Sharp => 1
  | .Flat => -1

/-- Embeds `impl From<DegreeAlteration> for u8` (total encoder; also the 2-bit slot
code used inline by `ChordFormula::with_degree` / `has_degree`). -/
def DegreeAlteration.to_u8 : DegreeAlteration → Nat
  | .None => 1
  | .Flat => 2
  | .Sharp => 3

/-- Embeds `impl From<u8> for DegreeAlteration`: the source panics on any value
other than 1, 2, 3; the panic is embedded as `none`. -/
def DegreeAlteration.from_u8 : Nat → Option DegreeAlteration
  | 1 => some .None
  | 2 => some .Flat
  | 3 => some .Sharp
  | _ => none

/-- The tagged degree enum of `formula_degree.rs`. -/
inductive FormulaDegree
  | Natural (d : Nat)
  | Flat (d : Nat)
  | Sharp (d : Nat)
deriving DecidableEq

/-- Embeds `FormulaDegree::base_degree`. -/
def FormulaDegree.base_degree : FormulaDegree → Nat
  | .Natural d => d
  | .Flat d => d
  | .Sharp d => d

/-- Embeds `FormulaDegree::alteration` (-1 flat, 0 natural, +1 sharp). -/
def FormulaDegree.alteration : FormulaDegree → Int
  | .Natural _ => 0
  | .Flat _ => -1
  | .Sharp _ => 1

/-- The first match of `FormulaDegree::to_semitone_offset`: reduce an
extended degree to its in-octave equivalent; degrees beyond 15 have none. -/
def reduce_degree (d : Nat) : Option Nat :=
  if d ≤ 7 then some d
  else if d = 8 then some 1
  else if d = 9 then some 2
  else if d = 10 then some 3
  else if d = 11 then some 4
  else if d = 12 then some 5
  else if d = 13 then some 6
  else if d = 14 then some 7
  else if d = 15 then some 1
  else none

/-- The second match of `FormulaDegree::to_semitone_offset`: major-scale
semitone for each diatonic slot 1..7. -/
def base_semitones (r : Nat) : Option Nat :=
  if r = 1 then some 0
  else if r = 2 then some 2
  else if r = 3 then some 4
  else if r = 4 then some 5
  else if r = 5 then some 7
  else if r = 6 then some 9
  else if r = 7 then some 11
  else none

/-- Embeds `FormulaDegree::to_semitone_offset`: reduce, look up the major-scale
base, add the signed alteration, and wrap negatives / mod 12. -/
def FormulaDegree.to_semitone_offset (fd : FormulaDegree) : Option Nat :=
  match reduce_degree fd.base_degree with
  | none => none
  | some r =>
    match base_semitones r with
    | none => none
    | some b =>
      let adjusted : Int := (b : Int) + fd.alteration
      some (if adjusted < 0 then (12 + adjusted).toNat else adjusted.toNat % 12)

/-- The reduction table exactly as the spec words it: 1..7 map to
themselves, 8..15 through the explicit table, everything else has no
result (written from the spec text, for comparison with the source). -/
def claim_reduce (d : Nat) : Option Nat :=
  if 1 ≤ d ∧ d ≤ 7 then some d
  else if d = 8 then some 1
  else if d = 9 then some 2
  else if d = 10 then some 3
  else if d = 11 then some 4
  else if d = 12 then some 5
  else if d = 13 then some 6
  else if d = 14 then some 7
  else if d = 15 then some 1
  else none

/-- The spec's major-scale table on slots 1..7 (total; slots outside 1..7
never reach it). -/
def claim_major_table (r : Nat) : Nat :=
  if r = 1 then 0
  else if r = 2 then 2
  else if r = 3 then 4
  else if r = 4 then 5
  else if r = 5 then 7
  else if r = 6 then 9
  else if r = 7 then 11
  else 0

/-- The semitone-offset computation exactly as the claim words it: reduce,
map through the major table, add the alteration as a signed value, then add
12 if negative else take mod 12 (written from the claim text). -/
def claim_offset (fd : FormulaDegree) : Option Nat :=
  (claim_reduce fd.base_degree).map fun r =>
    let s : Int := (claim_major_table r : Int) + fd.alteration
    if s < 0 then (s + 12).toNat else s.toNat % 12

/-- Claim C1: `to_semitone_offset` computes exactly the reduce / major-table
/ alteration / normalize pipeline described in the spec, with the listed
worked examples, and yields no result outside degrees 1..15. -/
theorem c1_to_semitone_offset_spec :
    (∀ fd : FormulaDegree, fd.to_semitone_offset = claim_offset fd)
    ∧ (FormulaDegree.Flat 9).to_semitone_offset = some 1
    ∧ (FormulaDegree.Sharp 9).to_semitone_offset = some 3
    ∧ (FormulaDegree.Sharp 11).to_semitone_offset = some 6
    ∧ (FormulaDegree.Flat 13).to_semitone_offset = some 8
    ∧ (FormulaDegree.Natural 15).to_semitone_offset = some 0
    ∧ (FormulaDegree.Natural 0).to_semitone_offset = none
    ∧ (FormulaDegree.Flat 0).to_semitone_offset = none
    ∧ (FormulaDegree.Sharp 0).to_semitone_offset = none
    ∧ (FormulaDegree.Natural 16).to_semitone_offset = none
    ∧ (∀ d, 16 ≤ d → (FormulaDegree.Natural d).to_semitone_offset = none
        ∧ (FormulaDegree.Flat d).to_semitone_offset = none
        ∧ (FormulaDegree.Sharp d).to_semitone_offset = none) := by
  have hred : ∀ d, 16 ≤ d → reduce_degree d = none := by
    intro d hd
    unfold reduce_degree
    split_ifs <;> first | omega | rfl
  have hclaim : ∀ d, 16 ≤ d → claim_reduce d = none := by
    intro d hd
    unfold claim_reduce
    split_ifs <;> first | omega | rfl
  have hmain : ∀ fd : FormulaDegree, fd.to_semitone_offset = claim_offset fd := by
    intro fd
    cases fd with
    | Natural d =>
      rcases Nat.lt_or_ge d 16 with h | h
      · interval_cases d <;> decide
      · simp [FormulaDegree.to_semitone_offset, claim_offset,
          FormulaDegree.base_degree, hred d h, hclaim d h]
    | Flat d =>
      rcases Nat.lt_or_ge d 16 with h | h
      · interval_cases d <;> decide
      · simp [FormulaDegree.to_semitone_offset, claim_offset,
          FormulaDegree.base_degree, hred d h, hclaim d h]
    | Sharp d =>
      rcases Nat.lt_or_ge d 16 with h | h
      · interval_cases d <;> decide
      · simp [FormulaDegree.to_semitone_offset, claim_offset,
          FormulaDegree.base_degree, hred d h, hclaim d h]
  refine ⟨hmain, by decide, by decide, by decide, by decide, by decide,
    by decide, by decide, by decide, by decide, ?_⟩
  intro d hd
  refine ⟨?_, ?_, ?_⟩ <;>
    simp [FormulaDegree.to_semitone_offset, FormulaDegree.base_degree, hred d hd]

/-- Claim C1 witness: the universal and conditional parts of the theorem
instantiated at concrete degrees. -/
theorem c1_to_semitone_offset_spec_witness :
    (FormulaDegree.Sharp 4).to_semitone_offset = claim_offset (FormulaDegree.Sharp 4)
    ∧ (16 ≤ 20 ∧ (FormulaDegree.Natural 20).to_semitone_offset = none) :=
  ⟨c1_to_semitone_offset_spec.1 (FormulaDegree.Sharp 4),
    by decide, (c1_to_semitone_offset_spec.2.2.2.2.2.2.2.2.2.2 20 (by decide)).1⟩

/-- Claim C7: the `u8` codec of `DegreeAlteration` is a fail-fast partial
inverse pair: decoding 1/2/3 gives None/Flat/Sharp, every other input
panics (embedded as `none`), decode after encode is the identity, and
encode after decode recovers the code exactly on 1, 2, 3. -/
theorem c7_alteration_codec :
    DegreeAlteration.from_u8 1 = some .None
    ∧ DegreeAlteration.from_u8 2 = some .Flat
    ∧ DegreeAlteration.from_u8 3 = some .Sharp
    ∧ DegreeAlteration.from_u8 0 = none
    ∧ DegreeAlteration.from_u8 4 = none
    ∧ (∀ c, c ≠ 1 → c ≠ 2 → c ≠ 3 → DegreeAlteration.from_u8 c = none)
    ∧ (∀ a, DegreeAlteration.from_u8 a.to_u8 = some a)
    ∧ (∀ c, (DegreeAlteration.from_u8 c).map DegreeAlteration.to_u8 = some c
        ↔ (c = 1 ∨ c = 2 ∨ c = 3)) := by
  refine ⟨rfl, rfl, rfl, rfl, rfl, ?_, ?_, ?_⟩
  · intro c h1 h2 h3
    match c with
    | 0 => rfl
    | 1 => omega
    | 2 => omega
    | 3 => omega
    | c + 4 => rfl
  · intro a
    cases a <;> rfl
  · intro c
    match c with
    | 0 => simp [DegreeAlteration.from_u8]
    | 1 => simp [DegreeAlteration.from_u8, DegreeAlteration.to_u8]
    | 2 => simp [DegreeAlteration.from_u8, DegreeAlteration.to_u8]
    | 3 => simp [DegreeAlteration.from_u8, DegreeAlteration.to_u8]
    | c + 4 => simp [DegreeAlteration.from_u8]

/-- Claim C7 witness: the universally quantified parts of the codec theorem
instantiated at concrete codes. -/
theorem c7_alteration_codec_witness :
    DegreeAlteration.from_u8 7 = none
    ∧ DegreeAlteration.from_u8 DegreeAlteration.Flat.to_u8 = some .Flat
    ∧ ((DegreeAlteration.from_u8 2).map DegreeAlteration.to_u8 = some 2
        ↔ (2 = 1 ∨ 2 = 2 ∨ 2 = 3)) :=
  ⟨c7_alteration_codec.2.2.2.2.2.1 7 (by decide) (by decide) (by decide),
    c7_alteration_codec.2.2.2.2.2.2.1 .Flat,
    c7_alteration_codec.2.2.2.2.2.2.2 2⟩

/-- The bit-packed chord representation of `chord_formula.rs`: a raw `u32`
holding fifteen 2-bit degree slots. -/
structure ChordFormula where
  bits : Nat
deriving DecidableEq

/-- Embeds `ChordFormula::empty`. -/
def ChordFormula.empty : ChordFormula := ⟨0⟩

/-- Embeds `ChordFormula::new`. -/
def ChordFormula.new (bits : Nat) : ChordFormula := ⟨bits⟩

/-- Embeds `ChordFormula::is_empty`. -/
def ChordFormula.is_empty (f : ChordFormula) : Bool := f.bits == 0

/-- Embeds `ChordFormula::with_degree`: out-of-range degrees return `self`; in
range, clear the 2-bit slot at `(degree-1)*2` and store the alteration
code there. -/
def ChordFormula.with_degree (f : ChordFormula) (degree : Nat)
    (alteration : DegreeAlteration) : ChordFormula :=
  if degree = 0 ∨ degree > 15 then f
  else
    let value := alteration.to_u8
    let shift := (degree - 1) * 2
    let mask := u32_not (3 <<< shift)
    ⟨(f.bits &&& mask) ||| (value <<< shift)⟩

/-- The 2-bit field read `(self.0 >> shift) & 0b11` that `has_degree`,
`has_any_degree` and `get_degree_alteration` all perform. -/
def ChordFormula.slot_value (f : ChordFormula) (degree : Nat) : Nat :=
  (f.bits >>> ((degree - 1) * 2)) &&& 3

/-- Embeds `ChordFormula::has_degree`. -/
def ChordFormula.has_degree (f : ChordFormula) (degree : Nat)
    (alteration : DegreeAlteration) : Bool :=
  if degree = 0 ∨ degree > 15 then false
  else f.slot_value degree == alteration.to_u8

/-- Embeds `ChordFormula::has_any_degree`. -/
def ChordFormula.has_any_degree (f : ChordFormula) (degree : Nat) : Bool :=
  if degree = 0 ∨ degree > 15 then false
  else f.slot_value degree != 0

/-- Embeds `ChordFormula::get_degree_alteration`, including the defensive
fallthrough arm of the source's match. -/
def ChordFormula.get_degree_alteration (f : ChordFormula) (degree : Nat) :
    Option DegreeAlteration :=
  if degree = 0 ∨ degree > 15 then none
  else
    match f.slot_value degree with
    | 0 => none
    | 1 => some .None
    | 2 => some .Flat
    | 3 => some .Sharp
    | _ => none

/-- Embeds `ChordFormula::degrees`: all present degrees in ascending order 1..15. -/
def ChordFormula.degrees (f : ChordFormula) : List (Nat × DegreeAlteration) :=
  (List.range' 1 15).filterMap fun d =>
    (f.get_degree_alteration d).map fun a => (d, a)

/-- Embeds `ChordFormula::union`: bitwise OR of the raw values. -/
def ChordFormula.union (f g : ChordFormula) : ChordFormula := ⟨f.bits ||| g.bits⟩

/-- The empty alteration symbol. -/
def empty_symbol : String := ""

/-- The sharp symbol. -/
def sharp_symbol : String := "♯"

/-- The flat symbol. -/
def flat_symbol : String := "♭"

/-- Embeds `DegreeAlteration::symbol`. -/
def DegreeAlteration.symbol : DegreeAlteration → String
  | .None => empty_symbol
  | .Sharp => sharp_symbol
  | .Flat => flat_symbol

/-- How one degree entry is rendered by `Display for ChordFormula`. -/
def ChordFormula.degree_string : Nat × DegreeAlteration → String
  | (d, .None) => toString d
  | (d, .Flat) => DegreeAlteration.Flat.symbol ++ toString d
  | (d, .Sharp) => DegreeAlteration.Sharp.symbol ++ toString d

/-- The separator used by `Display for ChordFormula`. -/
def space_sep : String := " "

/-- The empty-chord rendering of `Display for ChordFormula`. -/
def empty_chord_display : String := "∅"

/-- Embeds `impl fmt::Display for ChordFormula`: the degrees joined by spaces, or
the empty-set sign. -/
def ChordFormula.display (f : ChordFormula) : String :=
  if f.is_empty then empty_chord_display
  else String.intercalate space_sep (f.degrees.map ChordFormula.degree_string)

/-- A number below a power of two has no bit at or beyond that exponent. -/
theorem testBit_false_of_lt {v : Nat} {k : Nat} (hv : v < 2 ^ k) (j : Nat)
    (hj : k ≤ j) : v.testBit j = false :=
  Nat.testBit_lt_two_pow
    (lt_of_lt_of_le hv (Nat.pow_le_pow_right (by omega) hj))

/-- The bits of the mask literal `0b11`. -/
theorem testBit_three (j : Nat) : Nat.testBit 3 j = decide (j < 2) := by
  match j with
  | 0 => rfl
  | 1 => rfl
  | j + 2 =>
    rw [testBit_false_of_lt (show (3 : Nat) < 2 ^ 2 by omega) (j + 2) (by omega)]
    simp

/-- Each bit of the 2-bit field extraction, expressed through the bits of
the packed word. -/
theorem testBit_slot (x s j : Nat) :
    ((x >>> s) &&& 3).testBit j = (x.testBit (s + j) && decide (j < 2)) := by
  simp [Nat.testBit_and, Nat.testBit_shiftRight, testBit_three]

/-- A 2-bit field extraction is below 4. -/
theorem slot_lt_four (x s : Nat) : (x >>> s) &&& 3 < 4 :=
  Nat.lt_succ_of_le Nat.and_le_right

/-- Two words whose bits agree at positions `s` and `s+1` have equal 2-bit
fields at shift `s`. -/
theorem slot_eq_of_testBit {x y : Nat} (s : Nat)
    (h0 : x.testBit s = y.testBit s) (h1 : x.testBit (s + 1) = y.testBit (s + 1)) :
    (x >>> s) &&& 3 = (y >>> s) &&& 3 := by
  apply Nat.eq_of_testBit_eq
  intro j
  rw [testBit_slot, testBit_slot]
  match j with
  | 0 => simpa using h0
  | 1 => simpa using h1
  | j + 2 => simp

/-- Bit-level description of the word built by `with_degree` for an
in-range degree: the two slot bits hold the alteration code and every other
bit of the 32-bit word is untouched. -/
theorem with_degree_bits_testBit (x : Nat) (hx : x < 2 ^ 32) (s : Nat)
    (hs : s ≤ 28) (v : Nat) (hv : v < 4) (i : Nat) :
    ((x &&& u32_not (3 <<< s)) ||| (v <<< s)).testBit i =
      if s ≤ i ∧ i < s + 2 then v.testBit (i - s) else x.testBit i := by
  unfold u32_not
  simp only [Nat.testBit_or, Nat.testBit_and, Nat.testBit_xor,
    Nat.testBit_shiftLeft, Nat.testBit_two_pow_sub_one, testBit_three]
  by_cases hin : s ≤ i ∧ i < s + 2
  · have hi32 : i < 32 := by omega
    have hle : s ≤ i := hin.1
    have hlt : i - s < 2 := by omega
    simp [hin, hi32, hle, hlt]
  · rw [if_neg hin]
    by_cases hle : s ≤ i
    · have hge : s + 2 ≤ i := by omega
      have hlt : ¬ i - s < 2 := by omega
      have hvb : v.testBit (i - s) = false :=
        testBit_false_of_lt (show v < 2 ^ 2 by omega) (i - s) (by omega)
      by_cases hi32 : i < 32
      · simp [hle, hlt, hi32, hvb]
      · have hxi : x.testBit i = false :=
          Nat.testBit_lt_two_pow
            (lt_of_lt_of_le hx (Nat.pow_le_pow_right (by omega) (by omega)))
        simp [hle, hlt, hi32, hxi, hvb]
    · have hi32 : i < 32 := by omega
      simp [hle, hi32]

/-- Every alteration code is a valid 2-bit value. -/
theorem to_u8_lt_four (a : DegreeAlteration) : a.to_u8 < 4 := by
  cases a <;> decide

/-- The raw word produced by `with_degree` for an in-range degree. -/
theorem with_degree_bits (f : ChordFormula) (d : Nat) (h1 : 1 ≤ d)
    (h15 : d ≤ 15) (a : DegreeAlteration) :
    (f.with_degree d a).bits =
      (f.bits &&& u32_not (3 <<< ((d - 1) * 2))) ||| (a.to_u8 <<< ((d - 1) * 2)) := by
  unfold ChordFormula.with_degree
  rw [if_neg (by omega)]

/-- Writing a degree stores its alteration code in that degree's slot. -/
theorem with_degree_slot_self (f : ChordFormula) (hx : f.bits < 2 ^ 32)
    (d : Nat) (h1 : 1 ≤ d) (h15 : d ≤ 15) (a : DegreeAlteration) :
    (f.with_degree d a).slot_value d = a.to_u8 := by
  unfold ChordFormula.slot_value
  rw [with_degree_bits f d h1 h15 a]
  apply Nat.eq_of_testBit_eq
  intro j
  rw [testBit_slot]
  rw [with_degree_bits_testBit f.bits hx ((d - 1) * 2) (by omega) a.to_u8
    (to_u8_lt_four a) ((d - 1) * 2 + j)]
  by_cases hj : j < 2
  · have hin : (d - 1) * 2 ≤ (d - 1) * 2 + j ∧ (d - 1) * 2 + j < (d - 1) * 2 + 2 := by
      omega
    simp [hin, hj]
  · have hnot : ¬((d - 1) * 2 ≤ (d - 1) * 2 + j ∧ (d - 1) * 2 + j < (d - 1) * 2 + 2) := by
      omega
    have hvb : a.to_u8.testBit j = false :=
      testBit_false_of_lt (show a.to_u8 < 2 ^ 2 by have := to_u8_lt_four a; omega)
        j (by omega)
    simp [hnot, hj, hvb]

/-- Any bit outside the written slot is untouched by `with_degree`. -/
theorem with_degree_testBit_out (f : ChordFormula) (hx : f.bits < 2 ^ 32)
    (d : Nat) (h1 : 1 ≤ d) (h15 : d ≤ 15) (a : DegreeAlteration) (i : Nat)
    (hi : ¬((d - 1) * 2 ≤ i ∧ i < (d - 1) * 2 + 2)) :
    (f.with_degree d a).bits.testBit i = f.bits.testBit i := by
  rw [with_degree_bits f d h1 h15 a]
  rw [with_degree_bits_testBit f.bits hx ((d - 1) * 2) (by omega) a.to_u8
    (to_u8_lt_four a) i]
  rw [if_neg hi]

/-- Writing one degree leaves every other degree's slot unchanged. -/
theorem with_degree_slot_frame (f : ChordFormula) (hx : f.bits < 2 ^ 32)
    (d : Nat) (h1 : 1 ≤ d) (h15 : d ≤ 15) (a : DegreeAlteration)
    (d' : Nat) (h1' : 1 ≤ d') (h15' : d' ≤ 15) (hne : d' ≠ d) :
    (f.with_degree d a).slot_value d' = f.slot_value d' := by
  unfold ChordFormula.slot_value
  apply slot_eq_of_testBit
  · exact with_degree_testBit_out f hx d h1 h15 a ((d' - 1) * 2) (by omega)
  · exact with_degree_testBit_out f hx d h1 h15 a ((d' - 1) * 2 + 1) (by omega)

/-- Claim C5: for an in-range degree, `with_degree` sets exactly that
degree's 2-bit slot to the alteration's code, leaving every other slot and
the reserved bits 30-31 unchanged, and `has_degree` reads the write back:
true for the written alteration and false for each of the other two. -/
theorem c5_with_degree_frame (f : ChordFormula) (d : Nat)
    (a : DegreeAlteration) (hx : f.bits < 2 ^ 32) (h1 : 1 ≤ d) (h15 : d ≤ 15) :
    (f.with_degree d a).slot_value d = a.to_u8
    ∧ (∀ d', 1 ≤ d' → d' ≤ 15 → d' ≠ d →
        (f.with_degree d a).slot_value d' = f.slot_value d')
    ∧ (f.with_degree d a).bits.testBit 30 = f.bits.testBit 30
    ∧ (f.with_degree d a).bits.testBit 31 = f.bits.testBit 31
    ∧ (ChordFormula.empty.with_degree d a).has_degree d a = true
    ∧ (∀ a', a' ≠ a → (ChordFormula.empty.with_degree d a).has_degree d a' = false) := by
  have hempty : (ChordFormula.empty.with_degree d a).slot_value d = a.to_u8 :=
    with_degree_slot_self ChordFormula.empty (by decide) d h1 h15 a
  refine ⟨with_degree_slot_self f hx d h1 h15 a,
    fun d' h1' h15' hne => with_degree_slot_frame f hx d h1 h15 a d' h1' h15' hne,
    with_degree_testBit_out f hx d h1 h15 a 30 (by omega),
    with_degree_testBit_out f hx d h1 h15 a 31 (by omega), ?_, ?_⟩
  · unfold ChordFormula.has_degree
    rw [if_neg (by omega), hempty]
    simp
  · intro a' hne
    unfold ChordFormula.has_degree
    rw [if_neg (by omega), hempty]
    have hcode : a.to_u8 ≠ a'.to_u8 := by
      cases a <;> cases a' <;> simp_all [DegreeAlteration.to_u8]
    simp [hcode]

/-- Claim C5 witness: the frame theorem applied to a concrete formula,
degree and alteration, with the inner quantifiers also instantiated. -/
theorem c5_with_degree_frame_witness :
    ((ChordFormula.new 0x12345678).with_degree 3 .Flat).slot_value 3 =
      DegreeAlteration.Flat.to_u8
    ∧ ((ChordFormula.new 0x12345678).with_degree 3 .Flat).slot_value 5 =
      (ChordFormula.new 0x12345678).slot_value 5
    ∧ (ChordFormula.empty.with_degree 3 .Flat).has_degree 3 .Flat = true
    ∧ (ChordFormula.empty.with_degree 3 .Flat).has_degree 3 .Sharp = false := by
  have h := c5_with_degree_frame (ChordFormula.new 0x12345678) 3 .Flat
    (by decide) (by decide) (by decide)
  exact ⟨h.1, h.2.1 5 (by decide) (by decide) (by decide), h.2.2.2.2.1,
    h.2.2.2.2.2 .Sharp (by decide)⟩

/-- The bit-flag scale representation of `scale_formula.rs`: one presence
bit per semitone offset across two octaves, in a raw `u32`. -/
structure ScaleFormula where
  bits : Nat
deriving DecidableEq

/-- Embeds `ScaleFormula::new`. -/
def ScaleFormula.new (bits : Nat) : ScaleFormula := ⟨bits⟩

/-- Embeds `ScaleFormula::empty`. -/
def ScaleFormula.empty : ScaleFormula := ⟨0⟩

/-- Embeds `ScaleFormula::is_empty`. -/
def ScaleFormula.is_empty (f : ScaleFormula) : Bool := f.bits == 0

/-- Embeds `ScaleFormula::major` (bit constant `0b101010110101`). -/
def ScaleFormula.major : ScaleFormula := ⟨0b101010110101⟩

/-- Embeds `ScaleFormula::major_extended`: the major pattern in both octaves. -/
def ScaleFormula.major_extended : ScaleFormula :=
  ⟨0b101010110101 ||| (0b101010110101 <<< 12)⟩

/-- Embeds `ScaleFormula::contains_semitone`: false at or beyond 24, else test the
bit. -/
def ScaleFormula.contains_semitone (f : ScaleFormula) (semitone : Nat) : Bool :=
  if semitone ≥ 24 then false
  else (f.bits &&& (1 <<< semitone)) != 0

/-- Embeds `ScaleFormula::note_count`: `u32::count_ones`, the number of set bits
among the 32 bit positions of the raw word. -/
def ScaleFormula.note_count (f : ScaleFormula) : Nat :=
  (List.range 32).countP fun i => f.bits.testBit i

/-- Embeds `ScaleFormula::semitones`: ascending set-bit positions in `0..24`. -/
def ScaleFormula.semitones (f : ScaleFormula) : List Nat :=
  (List.range 24).filter fun i => f.contains_semitone i

/-- Embeds `ScaleFormula::from_semitones`: OR in a bit for each offset below 24. -/
def ScaleFormula.from_semitones (offsets : List Nat) : ScaleFormula :=
  ⟨offsets.foldl (fun bits s => if s < 24 then bits ||| (1 <<< s) else bits) 0⟩

/-- Embeds `Note + Semitone` from `note.rs`: `u8` saturating addition. -/
def note_add (root offset : Nat) : Nat := min (root + offset) 255

/-- Embeds `ScaleFormula::notes_from_root`: one pitch per semitone offset, in
ascending order, via the saturating note addition. -/
def ScaleFormula.notes_from_root (f : ScaleFormula) (root : Nat) : List Nat :=
  f.semitones.map fun semitone_offset => note_add root semitone_offset

/-- Embeds `ScaleFormula::union`. -/
def ScaleFormula.union (f g : ScaleFormula) : ScaleFormula := ⟨f.bits ||| g.bits⟩

/-- Embeds `ScaleFormula::intersection`. -/
def ScaleFormula.intersection (f g : ScaleFormula) : ScaleFormula :=
  ⟨f.bits &&& g.bits⟩

/-- Embeds `ScaleFormula::complement`: bitwise NOT masked to the first octave. -/
def ScaleFormula.complement (f : ScaleFormula) : ScaleFormula :=
  ⟨u32_not f.bits &&& ((1 <<< 12) - 1)⟩

/-- The 12-entry interval-name table of `Display for ScaleFormula`. -/
def note_names : List String :=
  [r"1", r"♭2", r"2", r"♭3", r"3", r"4", r"♭5", r"5", r"♭6", r"6", r"♭7", r"7"]

/-- The separator used by `Display for ScaleFormula`. -/
def comma_sep : String := ", "

/-- The empty-scale rendering of `Display for ScaleFormula`. -/
def empty_scale_display : String := "Empty"

/-- Embeds `impl fmt::Display for ScaleFormula`: the source indexes the 12-entry
table directly with each semitone value (`note_names[s as usize]`, no
modulo); the out-of-bounds panic this causes for semitones 12..23 is
embedded as `none`. -/
def ScaleFormula.display? (f : ScaleFormula) : Option String :=
  if f.is_empty then some empty_scale_display
  else
    (f.semitones.mapM fun s => note_names.get? s).map fun names =>
      String.intercalate comma_sep names

/-- The Display rendering exactly as the spec words it: every set bit is
named through the table at index `bit % 12` (written from the spec text,
for comparison with the source). -/
def ScaleFormula.claim_display (f : ScaleFormula) : String :=
  if f.is_empty then empty_scale_display
  else
    String.intercalate comma_sep
      (f.semitones.map fun s => note_names.getD (s % 12) empty_scale_display)

/-- The major scale rendered by Display. -/
def major_display : String := "1, 2, 3, 4, 5, 6, 7"

/-- The spec's rendering of the extended major scale. -/
def extended_display : String := "1, 2, 3, 4, 5, 6, 7, 1, 2, 3, 4, 5, 6, 7"

/-- Claim C2 evaluation: the source Display indexes the 12-entry table at
the raw semitone value, so it runs off the table (panics, embedded as
`none`) on `major_extended`, which has bit 12 set; the first-octave
`major` renders fine, and the spec's own `bit % 12` rendering of
`major_extended` would have produced a value. -/
theorem c2_display_out_of_bounds :
    ScaleFormula.major_extended.display? = none
    ∧ ScaleFormula.major.display? = some major_display
    ∧ ScaleFormula.major_extended.claim_display = extended_display := by
  refine ⟨by decide, by decide, by decide⟩

/-- A set-bit test written as the source writes it agrees with `testBit`
below the 24-semitone bound. -/
theorem contains_semitone_eq_testBit (f : ScaleFormula) (s : Nat) (hs : s < 24) :
    f.contains_semitone s = f.bits.testBit s := by
  unfold ScaleFormula.contains_semitone
  rw [if_neg (by omega)]
  rw [show (1 <<< s : Nat) = 2 ^ s by rw [Nat.shiftLeft_eq, one_mul]]
  rw [Nat.and_two_pow]
  cases h : f.bits.testBit s <;> simp [h, (Nat.two_pow_pos s).ne']

/-- Claim C3 counterexample: a formula built by `new` with only bit 24 set
yields an empty pitch sequence while `note_count` reports one note, so the
sequence length does not equal `note_count` for every `u32`-constructed
formula. -/
theorem c3_note_count_mismatch :
    ¬ ((ScaleFormula.new (2 ^ 24)).notes_from_root 0).length =
      (ScaleFormula.new (2 ^ 24)).note_count := by decide

/-- Claim C3 amended: `notes_from_root` yields `root + offset` (saturating
note addition) for each offset of `semitones()` in ascending order; its
length is the number of set bits among positions 0..23, which equals
`note_count()` exactly when the formula has no bits at positions 24 and
above. -/
theorem c3_notes_from_root_amended (f : ScaleFormula) (root : Nat) :
    f.notes_from_root root = f.semitones.map (fun s => note_add root s)
    ∧ (f.notes_from_root root).length =
        ((List.range 24).countP fun i => f.bits.testBit i)
    ∧ (f.bits < 2 ^ 24 → (f.notes_from_root root).length = f.note_count) := by
  have hlen : (f.notes_from_root root).length =
      ((List.range 24).countP fun i => f.bits.testBit i) := by
    unfold ScaleFormula.notes_from_root ScaleFormula.semitones
    rw [List.length_map, ← List.countP_eq_length_filter]
    apply List.countP_congr
    intro i hi
    rw [contains_semitone_eq_testBit f i (by simpa using List.mem_range.mp hi)]
  refine ⟨rfl, hlen, fun hf => ?_⟩
  rw [hlen]
  unfold ScaleFormula.note_count
  rw [show (32 : Nat) = 24 + 8 from rfl, List.range_add, List.countP_append]
  have hz : ((List.range 8).map (24 + ·)).countP (fun i => f.bits.testBit i) = 0 := by
    apply List.countP_eq_zero.mpr
    intro a ha
    simp only [List.mem_map, List.mem_range] at ha
    obtain ⟨b, hb, rfl⟩ := ha
    simp only [Bool.not_eq_true]
    exact Nat.testBit_lt_two_pow
      (lt_of_lt_of_le hf (Nat.pow_le_pow_right (by omega) (show 24 ≤ 24 + b by omega)))
  omega

/-- Claim C3 amended witness: the amended theorem applied to the major
scale from middle C, with the side condition discharged concretely. -/
theorem c3_notes_from_root_amended_witness :
    ScaleFormula.major.bits < 2 ^ 24
    ∧ (ScaleFormula.major.notes_from_root 60).length = ScaleFormula.major.note_count :=
  ⟨by decide, (c3_notes_from_root_amended ScaleFormula.major 60).2.2 (by decide)⟩

/-- Claim C4: `complement` is bitwise NOT masked to the first octave: its
result always fits in 12 bits, and applying it twice clears every bit at
position 12 and above while restoring the low 12 bits. -/
theorem c4_complement_mask (f : ScaleFormula) (_hx : f.bits < 2 ^ 32) :
    f.complement.bits ≤ 0xFFF
    ∧ f.complement.complement = ScaleFormula.new (f.bits &&& 0xFFF) := by
  constructor
  · exact le_trans Nat.and_le_right (by decide)
  · unfold ScaleFormula.complement ScaleFormula.new u32_not
    rw [show ((1 <<< 12 : Nat) - 1) = 2 ^ 12 - 1 by decide,
      show (0xFFF : Nat) = 2 ^ 12 - 1 by decide]
    congr 1
    apply Nat.eq_of_testBit_eq
    intro i
    simp only [Nat.testBit_and, Nat.testBit_xor, Nat.testBit_two_pow_sub_one]
    by_cases h12 : i < 12
    · have h32 : i < 32 := by omega
      simp [h12, h32]
    · simp [h12]

/-- Claim C4 witness: the masking theorem applied to a formula with bits in
both octaves and above. -/
theorem c4_complement_mask_witness :
    (ScaleFormula.new 0xABCDE5).bits < 2 ^ 32
    ∧ (ScaleFormula.new 0xABCDE5).complement.bits ≤ 0xFFF
    ∧ (ScaleFormula.new 0xABCDE5).complement.complement =
        ScaleFormula.new ((ScaleFormula.new 0xABCDE5).bits &&& 0xFFF) :=
  ⟨by decide, (c4_complement_mask (ScaleFormula.new 0xABCDE5) (by decide)).1,
    (c4_complement_mask (ScaleFormula.new 0xABCDE5) (by decide)).2⟩

/-- The accumulator loop of `from_semitones` never looks at offsets of 24
or more, so filtering them away first changes nothing. -/
theorem from_semitones_foldl_filter (l : List Nat) : ∀ acc : Nat,
    l.foldl (fun bits s => if s < 24 then bits ||| (1 <<< s) else bits) acc =
      (l.filter fun s => s < 24).foldl
        (fun bits s => if s < 24 then bits ||| (1 <<< s) else bits) acc := by
  induction l with
  | nil => intro acc; rfl
  | cons s t ih =>
    intro acc
    by_cases hs : s < 24
    · simp only [List.foldl_cons, List.filter_cons, hs, if_true, decide_True]
      exact ih _
    · simp only [List.foldl_cons, List.filter_cons, hs, if_false, decide_False]
      exact ih acc

/-- Claim C6: out-of-range arguments are silently ignored on both types:
`with_degree` is a no-op and the degree reads return false / `none` for
degree 0 or above 15; `from_semitones` drops offsets at 24 and above; and
`contains_semitone` is false there, with the two concrete scenarios from
the spec. -/
theorem c6_silent_clamp :
    (∀ (f : ChordFormula) (d : Nat) (a : DegreeAlteration),
      d = 0 ∨ d > 15 → f.with_degree d a = f)
    ∧ (∀ (f : ChordFormula) (d : Nat) (a : DegreeAlteration),
      d = 0 ∨ d > 15 → f.has_degree d a = false)
    ∧ (∀ (f : ChordFormula) (d : Nat), d = 0 ∨ d > 15 → f.has_any_degree d = false)
    ∧ (∀ (f : ChordFormula) (d : Nat),
      d = 0 ∨ d > 15 → f.get_degree_alteration d = none)
    ∧ (∀ offsets : List Nat, ScaleFormula.from_semitones offsets =
        ScaleFormula.from_semitones (offsets.filter fun s => s < 24))
    ∧ (∀ (f : ScaleFormula) (s : Nat), 24 ≤ s → f.contains_semitone s = false)
    ∧ (ChordFormula.empty.with_degree 0 .Sharp).is_empty = true
    ∧ (ScaleFormula.from_semitones [0, 2, 24, 30]).semitones = [0, 2] := by
  refine ⟨?_, ?_, ?_, ?_, ?_, ?_, by decide, by decide⟩
  · intro f d a h
    unfold ChordFormula.with_degree
    rw [if_pos h]
  · intro f d a h
    unfold ChordFormula.has_degree
    rw [if_pos h]
  · intro f d h
    unfold ChordFormula.has_any_degree
    rw [if_pos h]
  · intro f d h
    unfold ChordFormula.get_degree_alteration
    rw [if_pos h]
  · intro offsets
    unfold ScaleFormula.from_semitones
    rw [from_semitones_foldl_filter offsets 0]
  · intro f s h
    unfold ScaleFormula.contains_semitone
    rw [if_pos (by omega)]

/-- Claim C6 witness: the clamp theorem instantiated at degree 16 and
offset 24. -/
theorem c6_silent_clamp_witness :
    (ChordFormula.new 7).with_degree 16 .Flat = ChordFormula.new 7
    ∧ (ChordFormula.new 7).has_degree 0 .Sharp = false
    ∧ (ChordFormula.new 7).has_any_degree 16 = false
    ∧ (ChordFormula.new 7).get_degree_alteration 0 = none
    ∧ (ScaleFormula.new 5).contains_semitone 24 = false
    ∧ ScaleFormula.from_semitones [3, 25] =
        ScaleFormula.from_semitones ([3, 25].filter fun s => s < 24) :=
  ⟨c6_silent_clamp.1 (ChordFormula.new 7) 16 .Flat (by omega),
    c6_silent_clamp.2.1 (ChordFormula.new 7) 0 .Sharp (by omega),
    c6_silent_clamp.2.2.1 (ChordFormula.new 7) 16 (by omega),
    c6_silent_clamp.2.2.2.1 (ChordFormula.new 7) 0 (by omega),
    c6_silent_clamp.2.2.2.2.2.1 (ScaleFormula.new 5) 24 (by omega),
    c6_silent_clamp.2.2.2.2.1 [3, 25]⟩

/-- Bitwise OR on naturals is idempotent. -/
theorem nat_lor_self (a : Nat) : a ||| a = a := by
  apply Nat.eq_of_testBit_eq
  intro i
  simp [Nat.testBit_or]

/-- Claim C8: `union` is commutative, associative and idempotent on both
formula types, being bitwise OR of the raw words. -/
theorem c8_union_laws :
    (∀ x y z : ChordFormula,
      x.union y = y.union x
      ∧ (x.union y).union z = x.union (y.union z)
      ∧ x.union x = x)
    ∧ (∀ x y z : ScaleFormula,
      x.union y = y.union x
      ∧ (x.union y).union z = x.union (y.union z)
      ∧ x.union x = x) := by
  constructor
  · intro x y z
    cases x; cases y; cases z
    exact ⟨by simp [ChordFormula.union, Nat.lor_comm],
      by simp [ChordFormula.union, Nat.lor_assoc],
      by simp [ChordFormula.union, nat_lor_self]⟩
  · intro x y z
    cases x; cases y; cases z
    exact ⟨by simp [ScaleFormula.union, Nat.lor_comm],
      by simp [ScaleFormula.union, Nat.lor_assoc],
      by simp [ScaleFormula.union, nat_lor_self]⟩

/-- Claim C9: two chord formulas with different non-zero codes in the same
degree slot can union to a code present in neither: Natural (01) OR Flat
(10) yields Sharp (11) in slot 1, with no conflict signalled. -/
theorem c9_union_slot_conflict :
    ∃ (x y : ChordFormula) (d : Nat),
      1 ≤ d ∧ d ≤ 15
      ∧ x.slot_value d ≠ 0
      ∧ y.slot_value d ≠ 0
      ∧ x.slot_value d ≠ y.slot_value d
      ∧ (x.union y).slot_value d ≠ x.slot_value d
      ∧ (x.union y).slot_value d ≠ y.slot_value d
      ∧ x.get_degree_alteration d = some .None
      ∧ y.get_degree_alteration d = some .Flat
      ∧ (x.union y).get_degree_alteration d = some .Sharp :=
  ⟨ChordFormula.new 1, ChordFormula.new 2, 1, by decide⟩

/-- Claim C10: the degree reads are total on arbitrary raw words: every
extracted 2-bit slot is below 4, every non-zero in-range slot decodes to an
alteration whose code is that slot value (so the defensive fallthrough arm
is unreachable), and `degrees` lists exactly the decodable degrees. -/
theorem c10_reads_total (f : ChordFormula) (d : Nat) :
    f.slot_value d < 4
    ∧ (1 ≤ d → d ≤ 15 → f.slot_value d ≠ 0 →
        ∃ a, f.get_degree_alteration d = some a ∧ a.to_u8 = f.slot_value d)
    ∧ (∀ a, (d, a) ∈ f.degrees ↔ f.get_degree_alteration d = some a) := by
  have h4 : f.slot_value d < 4 := slot_lt_four f.bits ((d - 1) * 2)
  have hbound : ∀ a, f.get_degree_alteration d = some a → 1 ≤ d ∧ d ≤ 15 := by
    intro a hget
    by_contra hcon
    unfold ChordFormula.get_degree_alteration at hget
    rw [if_pos (by omega)] at hget
    exact Option.noConfusion hget
  refine ⟨h4, ?_, ?_⟩
  · intro h1 h15 hnz
    have hval : f.slot_value d = 1 ∨ f.slot_value d = 2 ∨ f.slot_value d = 3 := by
      omega
    rcases hval with h | h | h
    · exact ⟨.None, by simp [ChordFormula.get_degree_alteration, h]; omega,
        by rw [h]; rfl⟩
    · exact ⟨.Flat, by simp [ChordFormula.get_degree_alteration, h]; omega,
        by rw [h]; rfl⟩
    · exact ⟨.Sharp, by simp [ChordFormula.get_degree_alteration, h]; omega,
        by rw [h]; rfl⟩
  · intro a
    constructor
    · intro hmem
      simp only [ChordFormula.degrees, List.mem_filterMap] at hmem
      obtain ⟨x, _, hg⟩ := hmem
      obtain ⟨a2, hgx, heq⟩ := Option.map_eq_some'.mp hg
      obtain ⟨rfl, rfl⟩ := Prod.mk.injEq .. |>.mp heq
      exact hgx
    · intro hget
      have hb := hbound a hget
      simp only [ChordFormula.degrees, List.mem_filterMap]
      refine ⟨d, ?_, by rw [hget]; rfl⟩
      rw [List.mem_range']
      exact ⟨d - 1, by omega, by omega⟩

/-- Claim C10 witness: the totality theorem applied to a raw word with
reserved bits set, with the decode branch instantiated at slot 1. -/
theorem c10_reads_total_witness :
    (ChordFormula.new 0xC0000002).slot_value 1 < 4
    ∧ (∃ a, (ChordFormula.new 0xC0000002).get_degree_alteration 1 = some a
        ∧ a.to_u8 = (ChordFormula.new 0xC0000002).slot_value 1)
    ∧ ((1, DegreeAlteration.Flat) ∈ (ChordFormula.new 0xC0000002).degrees ↔
        (ChordFormula.new 0xC0000002).get_degree_alteration 1 =
          some DegreeAlteration.Flat) := by
  have h := c10_reads_total (ChordFormula.new 0xC0000002) 1
  exact ⟨h.1, h.2.1 (by decide) (by decide) (by decide), h.2.2 .Flat⟩
